import Mathlib

/-!
# Verification of the RAG entity/graph core

Shallow embedding of the algorithmic core of the repository:

* `app/NER.py` — the fuzzy gazetteer span matcher (`gazetteer_ner`) and the
  span resolver (`merge_entities`);
* `app/graph/node.py` — the graph relevance scorer (`calculate_graph_metrics`);
* `app/rag/agent.py` — the context-optimizer loop (`GraphContextOptimizer`).

Python `float` scores are modelled as `ℚ` (the code only compares scores and
adds exact values of the form `1/(1+d)`), character indices as `ℕ`, and the
external services (rapidfuzz's `fuzz.ratio`, the razdel tokenizer, the Neo4j
store, the LLM) as explicit oracle parameters.
-/

namespace RAG

/-! ## Entities (`app/NER.py`, dataclass `Entity`) -/

/-- `Entity` dataclass from `app/NER.py`: a candidate span.
`span` is a half-open character interval `(start, stop)` into the source
text. -/
structure Entity where
  text : String
  span : Nat × Nat
  canonical : Option String := none
  score : Option ℚ := none
  source : String := "gazetteer"
deriving DecidableEq, Repr, Inhabited

/-- Python's `str.lower()`, modelled as a per-character lowercase map
(structural, so that concrete instances evaluate inside the kernel). -/
def strLower (s : String) : String :=
  ⟨s.data.map Char.toLower⟩

/-- Deduplication key used by `merge_entities`:
`(e.text.lower(), e.span, e.source)`. -/
def entKey (e : Entity) : String × (Nat × Nat) × String :=
  (strLower e.text, e.span, e.source)

/-- One step of building the Python dict `by_key`: assignment
`by_key[key] = e` keeps the key's first-insertion position but overwrites
the value; a fresh key is appended at the end. -/
def upsert (acc : List Entity) (e : Entity) : List Entity :=
  if acc.any (fun a => entKey a = entKey e) then
    acc.map (fun a => if entKey a = entKey e then e else a)
  else acc ++ [e]

/-- `by_key = {}` … `ents = list(by_key.values())` in `merge_entities`:
deduplicate by `entKey`, keeping the last value per key at the key's
first-occurrence position. -/
def dedupByKey (es : List Entity) : List Entity :=
  es.foldl upsert []

/-- The sort comparison of `merge_entities`:
`ents.sort(key=lambda e: (e.span[0], -e.span[1]))` — ascending start,
descending end on ties. -/
def entLE (a b : Entity) : Bool :=
  decide (a.span.1 < b.span.1 ∨ (a.span.1 = b.span.1 ∧ b.span.2 ≤ a.span.2))

/-- Span intersection test from `merge_entities`: with `e.span = (s1,e1)` and
`r.span = (s2,e2)`, the overlap condition is `s1 < e2 and s2 < e1`. -/
def overlapsB (e r : Entity) : Bool :=
  decide (e.span.1 < r.span.2 ∧ r.span.1 < e.span.2)

/-- The same overlap condition as a proposition. -/
def Ov (e r : Entity) : Prop :=
  e.span.1 < r.span.2 ∧ r.span.1 < e.span.2

/-- `quality(x) = (x.score or 0.0, len(x.text))` from `merge_entities`.
(`x.score or 0.0` yields `0.0` both for `None` and for a zero score, which
coincides with `Option.getD` at `0`.) -/
def quality (x : Entity) : ℚ × Nat :=
  (x.score.getD 0, x.text.length)

/-- Python's strict lexicographic tuple comparison
`quality(e) > quality(r)`. -/
def qGT (e r : Entity) : Bool :=
  decide ((quality r).1 < (quality e).1 ∨
    ((quality r).1 = (quality e).1 ∧ (quality r).2 < (quality e).2))

/-- Stable insertion of `e` into an already-sorted list: `e` is placed after
every element `a` with `entLE a e`, so elements comparing equal keep their
original relative order. -/
def insertSorted (e : Entity) : List Entity → List Entity
  | [] => [e]
  | a :: l => if entLE a e then a :: insertSorted e l else e :: a :: l

/-- `ents.sort(key=lambda e: (e.span[0], -e.span[1]))` from `merge_entities`.
Python's `list.sort` is a stable sort; since a stable sort's output is
uniquely determined by the comparison key, structural stable insertion sort
is an exact model of it. -/
def entSort (l : List Entity) : List Entity :=
  l.foldl (fun acc e => insertSorted e acc) []

/-- One iteration of the greedy loop of `merge_entities`: scan the accepted
list for the first overlapping span; on overlap, replace it when the new
candidate's quality tuple is strictly greater (removal plus append at the
end), otherwise drop the candidate; with no overlap, append. -/
def mergeStep (result : List Entity) (e : Entity) : List Entity :=
  match result.find? (fun r => overlapsB e r) with
  | none => result ++ [e]
  | some r => if qGT e r then result.erase r ++ [e] else result

/-- `merge_entities` from `app/NER.py`: deduplicate by key, sort by
`(start asc, end desc)`, then greedily resolve overlaps. -/
def merge_entities (entities : List Entity) : List Entity :=
  (entSort (dedupByKey entities)).foldl mergeStep []

end RAG

namespace RAG

/-! ## Relations used by the span-resolver proofs -/

/-- Non-intersection of two candidate spans (the negation of the overlap
test of `merge_entities`). -/
def NOv (a b : Entity) : Prop := ¬ Ov a b

lemma ov_symm {a b : Entity} (h : Ov a b) : Ov b a := ⟨h.2, h.1⟩

lemma nOv_symmetric : Symmetric NOv := fun _ _ h hov => h (ov_symm hov)

lemma overlapsB_iff {a b : Entity} : overlapsB a b = true ↔ Ov a b := by
  simp [overlapsB, Ov]

/-- Distinctness of deduplication keys. -/
def KeyNe (a b : Entity) : Prop := entKey a ≠ entKey b

lemma keyNe_symmetric : Symmetric KeyNe := fun _ _ h he => h he.symm

lemma keyNe_ne {a b : Entity} (h : KeyNe a b) : a ≠ b := fun he => h (by rw [he])

/-- The sort order of `merge_entities` as a proposition. -/
def EntLe (a b : Entity) : Prop := entLE a b = true

lemma entLe_start {a b : Entity} (h : EntLe a b) : a.span.1 ≤ b.span.1 := by
  unfold EntLe entLE at h
  rw [decide_eq_true_eq] at h
  omega

lemma entLE_total (a b : Entity) : entLE a b || entLE b a := by
  simp only [entLE, Bool.or_eq_true, decide_eq_true_eq]
  omega

lemma entLE_trans (a b c : Entity) : entLE a b → entLE b c → entLE a c := by
  simp only [entLE, decide_eq_true_eq]
  omega

/-! ## Deduplication keeps keys pairwise distinct -/

lemma upsert_pairwise (acc : List Entity) (e : Entity) (h : acc.Pairwise KeyNe) :
    (upsert acc e).Pairwise KeyNe := by
  unfold upsert
  by_cases hc : acc.any (fun a => entKey a = entKey e) = true
  · rw [if_pos hc]
    refine h.map _ (fun a b hab => ?_)
    unfold KeyNe at hab ⊢
    by_cases h1 : entKey a = entKey e
    · by_cases h2 : entKey b = entKey e
      · exact absurd (h1.trans h2.symm) hab
      · simp only [if_pos h1, if_neg h2]
        exact fun he => h2 he.symm
    · by_cases h2 : entKey b = entKey e
      · simp only [if_neg h1, if_pos h2]
        exact h1
      · simp only [if_neg h1, if_neg h2]
        exact hab
  · rw [if_neg hc]
    rw [List.pairwise_append]
    refine ⟨h, by simp, ?_⟩
    intro a ha b hb
    rw [List.mem_singleton] at hb
    subst hb
    simp only [List.any_eq_true, decide_eq_true_eq, not_exists] at hc
    push_neg at hc
    exact hc a ha

lemma foldl_upsert_pairwise :
    ∀ (es acc : List Entity), acc.Pairwise KeyNe →
      (es.foldl upsert acc).Pairwise KeyNe
  | [], _, h => h
  | e :: es, acc, h =>
    foldl_upsert_pairwise es (upsert acc e) (upsert_pairwise acc e h)

lemma dedupByKey_pairwise (es : List Entity) : (dedupByKey es).Pairwise KeyNe :=
  foldl_upsert_pairwise es [] List.Pairwise.nil

/-! ## The greedy resolution step preserves the resolver invariants -/

lemma mergeStep_of_find_none {acc : List Entity} {e : Entity}
    (h : acc.find? (fun r => overlapsB e r) = none) :
    mergeStep acc e = acc ++ [e] := by
  unfold mergeStep
  rw [h]

lemma mergeStep_of_find_some {acc : List Entity} {e r₀ : Entity}
    (h : acc.find? (fun r => overlapsB e r) = some r₀) :
    mergeStep acc e = if qGT e r₀ then acc.erase r₀ ++ [e] else acc := by
  unfold mergeStep
  rw [h]

lemma pairwise_append_singleton {R : Entity → Entity → Prop} {l : List Entity}
    {e : Entity} (h : l.Pairwise R) (hc : ∀ r ∈ l, R r e) :
    (l ++ [e]).Pairwise R := by
  rw [List.pairwise_append]
  refine ⟨h, by simp, ?_⟩
  intro a ha b hb
  rw [List.mem_singleton] at hb
  subst hb
  exact hc a ha

lemma mergeStep_inv (acc : List Entity) (e : Entity)
    (h1 : acc.Pairwise NOv) (h2 : acc.Pairwise EntLe) (h3 : acc.Pairwise KeyNe)
    (hle : ∀ r ∈ acc, EntLe r e) (hk : ∀ r ∈ acc, KeyNe r e) :
    (mergeStep acc e).Pairwise NOv ∧ (mergeStep acc e).Pairwise EntLe ∧
    (mergeStep acc e).Pairwise KeyNe ∧
    (∀ x ∈ mergeStep acc e, x ∈ acc ∨ x = e) := by
  cases hf : acc.find? (fun r => overlapsB e r) with
  | none =>
    rw [mergeStep_of_find_none hf]
    rw [List.find?_eq_none] at hf
    have hcross : ∀ r ∈ acc, NOv r e := by
      intro r hr hov
      have hne := hf r hr
      simp only [overlapsB_iff] at hne
      exact hne (ov_symm hov)
    refine ⟨pairwise_append_singleton h1 hcross,
      pairwise_append_singleton h2 hle,
      pairwise_append_singleton h3 hk, ?_⟩
    intro x hx
    rcases List.mem_append.mp hx with h | h
    · exact Or.inl h
    · exact Or.inr (List.mem_singleton.mp h)
  | some r₀ =>
    rw [mergeStep_of_find_some hf]
    have hr₀mem : r₀ ∈ acc := List.mem_of_find?_eq_some hf
    have hOv : Ov e r₀ := overlapsB_iff.mp (List.find?_some hf)
    have hnd : acc.Nodup := h3.imp keyNe_ne
    by_cases hq : qGT e r₀ = true
    · rw [if_pos hq]
      have herase_sub : List.Sublist (acc.erase r₀) acc := List.erase_sublist r₀ acc
      have hmem_erase : ∀ x ∈ acc.erase r₀, x ≠ r₀ ∧ x ∈ acc := by
        intro x hx
        exact hnd.mem_erase_iff.mp hx
      have hcross : ∀ r ∈ acc.erase r₀, NOv r e := by
        intro r hr hov
        obtain ⟨hne, hrmem⟩ := hmem_erase r hr
        have hs1 : r₀.span.1 ≤ e.span.1 := entLe_start (hle r₀ hr₀mem)
        have hs2 : r.span.1 ≤ e.span.1 := entLe_start (hle r hrmem)
        have hovr : Ov r₀ r := ⟨lt_of_le_of_lt hs1 hov.2, lt_of_le_of_lt hs2 hOv.1⟩
        exact (h1.forall nOv_symmetric hr₀mem hrmem hne.symm) hovr
      refine ⟨pairwise_append_singleton (h1.sublist herase_sub) hcross,
        pairwise_append_singleton (h2.sublist herase_sub)
          (fun a ha => hle a (hmem_erase a ha).2),
        pairwise_append_singleton (h3.sublist herase_sub)
          (fun a ha => hk a (hmem_erase a ha).2), ?_⟩
      intro x hx
      rcases List.mem_append.mp hx with h | h
      · exact Or.inl (hmem_erase x h).2
      · exact Or.inr (List.mem_singleton.mp h)
    · rw [if_neg hq]
      exact ⟨h1, h2, h3, fun x hx => Or.inl hx⟩

end RAG

namespace RAG

/-! ## Invariants of the full greedy fold -/

lemma foldl_mergeStep_inv :
    ∀ (l acc : List Entity),
      l.Pairwise EntLe → l.Pairwise KeyNe →
      acc.Pairwise NOv → acc.Pairwise EntLe → acc.Pairwise KeyNe →
      (∀ r ∈ acc, ∀ x ∈ l, EntLe r x ∧ KeyNe r x) →
      (l.foldl mergeStep acc).Pairwise NOv ∧
      (l.foldl mergeStep acc).Pairwise EntLe ∧
      (l.foldl mergeStep acc).Pairwise KeyNe
  | [], acc, _, _, ha1, ha2, ha3, _ => ⟨ha1, ha2, ha3⟩
  | e :: l, acc, hl1, hl2, ha1, ha2, ha3, hcross => by
    rw [List.foldl_cons]
    obtain ⟨hs1, hs2, hs3, hmem⟩ :=
      mergeStep_inv acc e ha1 ha2 ha3
        (fun r hr => (hcross r hr e (List.mem_cons_self e l)).1)
        (fun r hr => (hcross r hr e (List.mem_cons_self e l)).2)
    refine foldl_mergeStep_inv l (mergeStep acc e)
      (List.Pairwise.of_cons hl1) (List.Pairwise.of_cons hl2)
      hs1 hs2 hs3 ?_
    intro r hr x hx
    rcases hmem r hr with h | h
    · exact hcross r h x (List.mem_cons_of_mem e hx)
    · subst h
      exact ⟨(List.pairwise_cons.mp hl1).1 x hx, (List.pairwise_cons.mp hl2).1 x hx⟩

/-! ## Properties of the stable insertion sort -/

lemma mem_insertSorted {x e : Entity} : ∀ {l : List Entity},
    x ∈ insertSorted e l ↔ x = e ∨ x ∈ l
  | [] => by simp [insertSorted]
  | a :: l => by
    unfold insertSorted
    by_cases h : entLE a e = true
    · rw [if_pos h]
      simp only [List.mem_cons, mem_insertSorted (l := l)]
      tauto
    · rw [if_neg h]
      simp only [List.mem_cons]

lemma insertSorted_sorted (e : Entity) : ∀ {l : List Entity},
    l.Pairwise EntLe → (insertSorted e l).Pairwise EntLe
  | [], _ => by simp [insertSorted]
  | a :: l, h => by
    obtain ⟨ha, hl⟩ := List.pairwise_cons.mp h
    unfold insertSorted
    by_cases hc : entLE a e = true
    · rw [if_pos hc]
      rw [List.pairwise_cons]
      refine ⟨?_, insertSorted_sorted e hl⟩
      intro x hx
      rcases mem_insertSorted.mp hx with rfl | hx'
      · exact hc
      · exact ha x hx'
    · rw [if_neg hc]
      have he : EntLe e a := by
        have ht := entLE_total a e
        rw [Bool.or_eq_true] at ht
        rcases ht with h1 | h1
        · exact absurd h1 hc
        · exact h1
      rw [List.pairwise_cons]
      refine ⟨?_, h⟩
      intro x hx
      rcases List.mem_cons.mp hx with rfl | hx'
      · exact he
      · exact entLE_trans e a x he (ha x hx')

lemma insertSorted_perm (e : Entity) : ∀ (l : List Entity),
    (insertSorted e l).Perm (e :: l)
  | [] => by simp [insertSorted]
  | a :: l => by
    unfold insertSorted
    by_cases hc : entLE a e = true
    · rw [if_pos hc]
      exact ((insertSorted_perm e l).cons a).trans (List.Perm.swap e a l)
    · rw [if_neg hc]

lemma foldl_insert_sorted : ∀ (l acc : List Entity), acc.Pairwise EntLe →
    (l.foldl (fun acc e => insertSorted e acc) acc).Pairwise EntLe
  | [], _, h => h
  | e :: l, acc, h =>
    foldl_insert_sorted l (insertSorted e acc) (insertSorted_sorted e h)

lemma entSort_sorted (l : List Entity) : (entSort l).Pairwise EntLe :=
  foldl_insert_sorted l [] List.Pairwise.nil

lemma foldl_insert_perm : ∀ (l acc : List Entity),
    (l.foldl (fun acc e => insertSorted e acc) acc).Perm (acc ++ l)
  | [], acc => by simp
  | e :: l, acc => by
    rw [List.foldl_cons]
    refine (foldl_insert_perm l (insertSorted e acc)).trans ?_
    refine ((insertSorted_perm e acc).append_right l).trans ?_
    exact List.perm_middle.symm

lemma entSort_perm (l : List Entity) : (entSort l).Perm l := by
  simpa [entSort] using foldl_insert_perm l []

lemma insertSorted_of_le {e : Entity} : ∀ {l : List Entity},
    (∀ a ∈ l, EntLe a e) → insertSorted e l = l ++ [e]
  | [], _ => rfl
  | a :: l, h => by
    unfold insertSorted
    rw [if_pos (show entLE a e = true from h a (List.mem_cons_self a l))]
    rw [insertSorted_of_le (fun x hx => h x (List.mem_cons_of_mem a hx))]
    rfl

lemma foldl_insert_of_sorted : ∀ (l acc : List Entity),
    (∀ x ∈ l, ∀ a ∈ acc, EntLe a x) → l.Pairwise EntLe →
    l.foldl (fun acc e => insertSorted e acc) acc = acc ++ l
  | [], acc, _, _ => by simp
  | e :: l, acc, hcross, hp => by
    rw [List.foldl_cons]
    rw [insertSorted_of_le (fun a ha => hcross e (List.mem_cons_self e l) a ha)]
    rw [foldl_insert_of_sorted l (acc ++ [e]) ?_ hp.of_cons]
    · simp
    · intro x hx a ha
      rcases List.mem_append.mp ha with h | h
      · exact hcross x (List.mem_cons_of_mem e hx) a h
      · rw [List.mem_singleton] at h
        subst h
        exact (List.pairwise_cons.mp hp).1 x hx

lemma entSort_of_sorted {l : List Entity} (h : l.Pairwise EntLe) :
    entSort l = l := by
  have h0 : ∀ x ∈ l, ∀ a ∈ ([] : List Entity), EntLe a x := by
    intro x _ a ha
    exact absurd ha (List.not_mem_nil a)
  simpa [entSort] using foldl_insert_of_sorted l [] h0 h

/-- The sorted, key-deduplicated worklist that `merge_entities` folds over. -/
lemma sorted_worklist (entities : List Entity) :
    (entSort (dedupByKey entities)).Pairwise EntLe ∧
    (entSort (dedupByKey entities)).Pairwise KeyNe := by
  constructor
  · exact entSort_sorted _
  · exact ((entSort_perm (dedupByKey entities)).pairwise_iff
      (fun hab => keyNe_symmetric hab)).mpr (dedupByKey_pairwise entities)

lemma merge_entities_inv (entities : List Entity) :
    (merge_entities entities).Pairwise NOv ∧
    (merge_entities entities).Pairwise EntLe ∧
    (merge_entities entities).Pairwise KeyNe := by
  obtain ⟨hs, hk⟩ := sorted_worklist entities
  exact foldl_mergeStep_inv _ [] hs hk List.Pairwise.nil List.Pairwise.nil
    List.Pairwise.nil (fun r hr => absurd hr (List.not_mem_nil r))

end RAG

namespace RAG

/-! ## Sanity checks of the embedding (spec §8 Scenario B) -/

example :
    merge_entities
      [{ text := "abcde", span := (0, 5), score := some 90 },
       { text := "cdefghij", span := (2, 10), score := some 95 }] =
      [{ text := "cdefghij", span := (2, 10), score := some 95 }] := by decide

example :
    merge_entities
      [{ text := "ab", span := (0, 2), score := some 90 },
       { text := "cd", span := (3, 5), score := some 95 }] =
      [{ text := "ab", span := (0, 2), score := some 90 },
       { text := "cd", span := (3, 5), score := some 95 }] := by decide

/-- C1: for every input list of candidate spans, any two spans in the list
returned by `merge_entities` are non-overlapping: for spans `(s1,e1)` and
`(s2,e2)`, `¬ (s1 < e2 ∧ s2 < e1)` holds. -/
theorem merge_entities_nonoverlapping (entities : List Entity) :
    (merge_entities entities).Pairwise
      (fun a b => ¬ (a.span.1 < b.span.2 ∧ b.span.1 < a.span.2)) :=
  (merge_entities_inv entities).1

/-- C9: for every input list of candidate spans, the list returned by
`merge_entities` is ordered by ascending span start offset (including after
greedy replacement appended a higher-quality competitor at the end). -/
theorem merge_entities_sorted_by_start (entities : List Entity) :
    (merge_entities entities).Pairwise (fun a b => a.span.1 ≤ b.span.1) :=
  (merge_entities_inv entities).2.1.imp (fun h => entLe_start h)

/-! ## Idempotence machinery -/

lemma merge_entities_def (es : List Entity) :
    merge_entities es = (entSort (dedupByKey es)).foldl mergeStep [] :=
  rfl

lemma foldl_upsert_of_pairwise :
    ∀ (l acc : List Entity), (∀ x ∈ l, ∀ a ∈ acc, KeyNe a x) →
      l.Pairwise KeyNe → l.foldl upsert acc = acc ++ l
  | [], acc, _, _ => by simp
  | e :: l, acc, hcross, hp => by
    rw [List.foldl_cons]
    have hany : acc.any (fun a => entKey a = entKey e) = false := by
      rw [List.any_eq_false]
      intro a ha
      simpa using hcross e (List.mem_cons_self e l) a ha
    have hup : upsert acc e = acc ++ [e] := by
      unfold upsert
      rw [if_neg (by simp [hany])]
    rw [hup]
    rw [foldl_upsert_of_pairwise l (acc ++ [e]) ?_ hp.of_cons]
    · simp
    · intro x hx a ha
      rcases List.mem_append.mp ha with h | h
      · exact hcross x (List.mem_cons_of_mem e hx) a h
      · rw [List.mem_singleton] at h
        subst h
        exact (List.pairwise_cons.mp hp).1 x hx

lemma dedupByKey_of_pairwise {l : List Entity} (h : l.Pairwise KeyNe) :
    dedupByKey l = l := by
  have h0 : ∀ x ∈ l, ∀ a ∈ ([] : List Entity), KeyNe a x := by
    intro x _ a ha
    exact absurd ha (List.not_mem_nil a)
  simpa [dedupByKey] using foldl_upsert_of_pairwise l [] h0 h

lemma foldl_mergeStep_of_pairwise :
    ∀ (l acc : List Entity), (∀ a ∈ acc, ∀ x ∈ l, NOv a x) →
      l.Pairwise NOv → l.foldl mergeStep acc = acc ++ l
  | [], acc, _, _ => by simp
  | e :: l, acc, hcross, hp => by
    rw [List.foldl_cons]
    have hfind : acc.find? (fun r => overlapsB e r) = none := by
      rw [List.find?_eq_none]
      intro r hr
      simp only [overlapsB_iff]
      intro hov
      exact hcross r hr e (List.mem_cons_self e l) (ov_symm hov)
    rw [mergeStep_of_find_none hfind]
    rw [foldl_mergeStep_of_pairwise l (acc ++ [e]) ?_ hp.of_cons]
    · simp
    · intro a ha x hx
      rcases List.mem_append.mp ha with h | h
      · exact hcross a h x (List.mem_cons_of_mem e hx)
      · rw [List.mem_singleton] at h
        subst h
        exact (List.pairwise_cons.mp hp).1 x hx

/-- C8: the span resolver is idempotent — resolving an already-resolved
candidate list again yields the identical result. -/
theorem merge_entities_idempotent (entities : List Entity) :
    merge_entities (merge_entities entities) = merge_entities entities := by
  have hfix : ∀ ys : List Entity, ys.Pairwise NOv → ys.Pairwise EntLe →
      ys.Pairwise KeyNe → merge_entities ys = ys := by
    intro ys hno hle hkey
    have h0 : ∀ a ∈ ([] : List Entity), ∀ x ∈ ys, NOv a x := by
      intro a ha
      exact absurd ha (List.not_mem_nil a)
    rw [merge_entities_def, dedupByKey_of_pairwise hkey, entSort_of_sorted hle]
    simpa using foldl_mergeStep_of_pairwise ys [] h0 hno
  obtain ⟨hno, hle, hkey⟩ := merge_entities_inv entities
  exact hfix _ hno hle hkey

end RAG

namespace RAG

/-! ## Graph relevance scorer (`app/graph/node.py`, `calculate_graph_metrics`)

The Neo4j store is external; the per-pair Cypher shortest-path query
(`MATCH p=(a {title: $node1})-[rels*..max_length]-(b {title: $node2}) … LIMIT 1`)
is modelled as an oracle `q : String → String → Except String (Option PathRec)`:
`.error` models a raised driver exception, `.ok none` models "no record / null
path length", `.ok (some pr)` a returned shortest-path row. -/

/-- One result row of the shortest-path query: node titles along the path,
relation types along the path, and `path_length` (edge count). -/
structure PathRec where
  path : List String
  rels : List String
  len : Nat
deriving DecidableEq, Repr

/-- Accumulated result of `calculate_graph_metrics`: the dicts
`node_scores`, `paths_between_nodes` and the set `intermediate_nodes`
(modelled as insertion-ordered association lists / lists). -/
structure GraphMetrics where
  node_scores : List (String × ℚ)
  paths_between_nodes : List ((String × String) × List String)
  intermediate_nodes : List String
deriving DecidableEq, Repr

/-- `node_scores = {node: 0.0 for node in nodes}`: one entry per distinct
title, first-occurrence order. -/
def insertScoreKey (acc : List (String × ℚ)) (n : String) : List (String × ℚ) :=
  if acc.any (fun p => p.1 = n) then acc else acc ++ [(n, 0)]

def initScores (nodes : List String) : List (String × ℚ) :=
  nodes.foldl insertScoreKey []

/-- `node_scores[k] += v` (the key is always present when called). -/
def bumpScore (m : List (String × ℚ)) (k : String) (v : ℚ) : List (String × ℚ) :=
  m.map (fun p => if p.1 = k then (p.1, p.2 + v) else p)

/-- `paths_between_nodes[k] = v`: dict assignment (overwrite in place or
append a fresh key). -/
def setPath (m : List ((String × String) × List String)) (k : String × String)
    (v : List String) : List ((String × String) × List String) :=
  if m.any (fun p => p.1 = k) then m.map (fun p => if p.1 = k then (k, v) else p)
  else m ++ [(k, v)]

/-- `intermediate_nodes.add(n)` (a set, modelled in insertion order). -/
def addInter (inter : List String) (n : String) : List String :=
  if inter.any (fun m => m = n) then inter else inter ++ [n]

/-- `path_nodes[1:-1]`: the interior nodes of a path. -/
def interiorOf (path : List String) : List String :=
  (path.drop 1).take (path.length - 2)

/-- The alternating node/relation trace built by `calculate_graph_metrics`:
`[n₀, "-[r₀]->", n₁, …, nₖ]`.  (The store returns exactly one relation per
edge, so the trailing mismatched cases are unreachable paddings.) -/
def pathWithRels : List String → List String → List String
  | [], _ => []
  | [n], _ => [n]
  | n :: m :: ns, r :: rs => n :: ("-[" ++ r ++ "]->") :: pathWithRels (m :: ns) rs
  | n :: _ :: _, [] => [n]

/-- `itertools.combinations(nodes, 2)`: ordered enumeration of index pairs. -/
def pairsOf : List String → List (String × String)
  | [] => []
  | x :: xs => xs.map (fun y => (x, y)) ++ pairsOf xs

/-- The per-pair body of the loop of `calculate_graph_metrics`: on a found
record, add `1/(1+dist)` to both endpoint scores, store the trace under both
key orders, and collect interior nodes not among the inputs; on no record,
add nothing; on a driver error, the exception propagates (there is no
`try/except` in the function). -/
def processPair (q : String → String → Except String (Option PathRec))
    (nodes : List String) (st : GraphMetrics) (node1 node2 : String) :
    Except String GraphMetrics :=
  match q node1 node2 with
  | .error e => .error e
  | .ok none => .ok st
  | .ok (some pr) =>
      let score : ℚ := 1 / (1 + (pr.len : ℚ))
      let scores1 := bumpScore st.node_scores node1 score
      let scores2 := bumpScore scores1 node2 score
      let pwr := pathWithRels pr.path pr.rels
      let paths1 := setPath st.paths_between_nodes (node1, node2) pwr
      let paths2 := setPath paths1 (node2, node1) pwr
      let inter := (interiorOf pr.path).foldl
        (fun acc n => if nodes.contains n then acc else addInter acc n)
        st.intermediate_nodes
      .ok { node_scores := scores2, paths_between_nodes := paths2,
            intermediate_nodes := inter }

/-- `calculate_graph_metrics` from `app/graph/node.py` (`max_length` is part
of the query oracle). -/
def calculate_graph_metrics (q : String → String → Except String (Option PathRec))
    (nodes : List String) : Except String GraphMetrics :=
  (pairsOf nodes).foldlM (fun st p => processPair q nodes st p.1 p.2)
    ⟨initScores nodes, [], []⟩

end RAG

namespace RAG

/-! ## Association-list lemmas for the scorer's dicts -/

lemma lookup_bumpScore_self : ∀ (m : List (String × ℚ)) (k : String) (v : ℚ),
    (bumpScore m k v).lookup k = (m.lookup k).map (fun x => x + v)
  | [], _, _ => rfl
  | (a, b) :: m, k, v => by
    by_cases h : a = k
    · subst h
      unfold bumpScore
      rw [List.map_cons, if_pos rfl]
      simp [List.lookup_cons]
    · have hbeq : (k == a) = false := by
        simp only [beq_eq_false_iff_ne, ne_eq]
        exact fun he => h he.symm
      unfold bumpScore
      rw [List.map_cons, if_neg h]
      rw [List.lookup_cons, List.lookup_cons, hbeq]
      exact lookup_bumpScore_self m k v

lemma lookup_bumpScore_other : ∀ (m : List (String × ℚ)) (k k' : String) (v : ℚ),
    k' ≠ k → (bumpScore m k v).lookup k' = m.lookup k'
  | [], _, _, _, _ => rfl
  | (a, b) :: m, k, k', v, hne => by
    by_cases h : a = k
    · subst h
      have hbeq : (k' == a) = false := by
        simp only [beq_eq_false_iff_ne, ne_eq]
        exact hne
      unfold bumpScore
      rw [List.map_cons, if_pos rfl]
      rw [List.lookup_cons, List.lookup_cons, hbeq]
      exact lookup_bumpScore_other m a k' v hne
    · unfold bumpScore
      rw [List.map_cons, if_neg h]
      rw [List.lookup_cons, List.lookup_cons]
      cases hbeq : (k' == a) with
      | true => rfl
      | false => exact lookup_bumpScore_other m k k' v hne

lemma bumpScore_keys (m : List (String × ℚ)) (k : String) (v : ℚ) :
    (bumpScore m k v).map Prod.fst = m.map Prod.fst := by
  unfold bumpScore
  rw [List.map_map]
  refine List.map_congr_left ?_
  intro p _
  by_cases h : p.1 = k
  · simp [h]
  · simp [h]

end RAG

namespace RAG

lemma lookup_map_set :
    ∀ (m : List ((String × String) × List String)) (k : String × String)
      (v : List String), (∃ p ∈ m, p.1 = k) →
      (m.map (fun p => if p.1 = k then (k, v) else p)).lookup k = some v
  | [], _, _, h => absurd h (by simp)
  | (a, b) :: m, k, v, h => by
    by_cases hk : a = k
    · subst hk
      rw [List.map_cons, if_pos rfl, List.lookup_cons]
      simp
    · rw [List.map_cons, if_neg hk, List.lookup_cons]
      have hbeq : (k == a) = false := by
        simp only [beq_eq_false_iff_ne, ne_eq]
        exact fun he => hk he.symm
      rw [hbeq]
      refine lookup_map_set m k v ?_
      rcases h with ⟨p, hp, hpk⟩
      rcases List.mem_cons.mp hp with rfl | hp'
      · exact absurd hpk hk
      · exact ⟨p, hp', hpk⟩

lemma lookup_append_single :
    ∀ (m : List ((String × String) × List String)) (k : String × String)
      (v : List String), (∀ p ∈ m, p.1 ≠ k) →
      (m ++ [(k, v)]).lookup k = some v
  | [], k, v, _ => by simp
  | (a, b) :: m, k, v, h => by
    rw [List.cons_append, List.lookup_cons]
    have hbeq : (k == a) = false := by
      simp only [beq_eq_false_iff_ne, ne_eq]
      exact fun he => h (a, b) (List.mem_cons_self _ _) he.symm
    rw [hbeq]
    exact lookup_append_single m k v
      (fun p hp => h p (List.mem_cons_of_mem _ hp))

lemma lookup_setPath_self (m : List ((String × String) × List String))
    (k : String × String) (v : List String) :
    (setPath m k v).lookup k = some v := by
  unfold setPath
  by_cases h : m.any (fun p => p.1 = k) = true
  · rw [if_pos h]
    refine lookup_map_set m k v ?_
    simpa using h
  · rw [if_neg h]
    refine lookup_append_single m k v ?_
    intro p hp
    simp only [List.any_eq_true, decide_eq_true_eq, not_exists, not_and] at h
    push_neg at h
    exact h p hp

lemma lookup_setPath_other (m : List ((String × String) × List String))
    (k k' : String × String) (v : List String) (hne : k' ≠ k) :
    (setPath m k v).lookup k' = m.lookup k' := by
  unfold setPath
  by_cases h : m.any (fun p => p.1 = k) = true
  · rw [if_pos h]
    clear h
    induction m with
    | nil => rfl
    | cons p m ih =>
      obtain ⟨a, b⟩ := p
      by_cases hk : a = k
      · subst hk
        rw [List.map_cons, if_pos rfl, List.lookup_cons, List.lookup_cons]
        have hbeq : (k' == a) = false := by
          simp only [beq_eq_false_iff_ne, ne_eq]
          exact hne
        rw [hbeq, ih]
      · rw [List.map_cons, if_neg hk, List.lookup_cons, List.lookup_cons]
        cases hbeq : (k' == a) with
        | true => rfl
        | false => rw [ih]
  · rw [if_neg h]
    clear h
    induction m with
    | nil =>
      rw [List.nil_append, List.lookup_cons]
      have hbeq : (k' == k) = false := by
        simp only [beq_eq_false_iff_ne, ne_eq]
        exact hne
      rw [hbeq]
    | cons p m ih =>
      rw [List.cons_append, List.lookup_cons, List.lookup_cons]
      cases hbeq : (k' == p.1) with
      | true => rfl
      | false => rw [ih]

end RAG

namespace RAG

/-! ## C3: per-pair contribution and path-record storage -/

lemma processPair_of_some {q : String → String → Except String (Option PathRec)}
    {nodes : List String} {st : GraphMetrics} {a b : String} {pr : PathRec}
    (hq : q a b = .ok (some pr)) :
    processPair q nodes st a b = .ok
      { node_scores :=
          bumpScore (bumpScore st.node_scores a (1 / (1 + (pr.len : ℚ)))) b
            (1 / (1 + (pr.len : ℚ))),
        paths_between_nodes :=
          setPath (setPath st.paths_between_nodes (a, b)
              (pathWithRels pr.path pr.rels)) (b, a)
            (pathWithRels pr.path pr.rels),
        intermediate_nodes :=
          (interiorOf pr.path).foldl
            (fun acc n => if nodes.contains n then acc else addInter acc n)
            st.intermediate_nodes } := by
  unfold processPair
  rw [hq]

/-- C3 (amended): for a pair `(a,b)` of distinct titles whose store query
returns a qualifying path of length `d`, processing that pair adds exactly
`1/(1+d)` to each of the two titles' scores, and stores the SAME
node/relation trace under both keys `(a,b)` and `(b,a)` — identically, not
reversed. -/
theorem processPair_symmetric_contribution
    (q : String → String → Except String (Option PathRec))
    (nodes : List String) (st : GraphMetrics) (a b : String) (pr : PathRec)
    (hq : q a b = .ok (some pr)) (hab : a ≠ b) :
    ∃ st', processPair q nodes st a b = .ok st' ∧
      st'.node_scores.lookup a =
        (st.node_scores.lookup a).map (fun x => x + 1 / (1 + (pr.len : ℚ))) ∧
      st'.node_scores.lookup b =
        (st.node_scores.lookup b).map (fun x => x + 1 / (1 + (pr.len : ℚ))) ∧
      st'.paths_between_nodes.lookup (a, b) =
        some (pathWithRels pr.path pr.rels) ∧
      st'.paths_between_nodes.lookup (b, a) =
        some (pathWithRels pr.path pr.rels) := by
  refine ⟨_, processPair_of_some hq, ?_, ?_, ?_, ?_⟩
  · rw [lookup_bumpScore_other _ b a _ hab, lookup_bumpScore_self]
  · rw [lookup_bumpScore_self, lookup_bumpScore_other _ a b _ (Ne.symm hab)]
  · rw [lookup_setPath_other _ _ _ _ (fun he => hab (congrArg Prod.fst he)),
      lookup_setPath_self]
  · rw [lookup_setPath_self]

/-- Concrete store oracle for the symmetric-storage counterexample: the
single pair `("a","b")` has the qualifying path `a -[R]-> c -[S]-> b` of
length 2; all other queries find nothing. -/
def qPathAB : String → String → Except String (Option PathRec) :=
  fun a b =>
    if a = "a" ∧ b = "b" then
      .ok (some { path := ["a", "c", "b"], rels := ["R", "S"], len := 2 })
    else .ok none

/-- C3 counterexample: on the two-title input `["a","b"]` with the path
`a -[R]-> c -[S]-> b`, the records stored under `("a","b")` and `("b","a")`
are the identical trace, and that trace is NOT equal to the reverse of
itself — so `PathRecordMap[(a,b)] = reverse (PathRecordMap[(b,a)])` fails. -/
theorem calculate_graph_metrics_record_not_reversed :
    (calculate_graph_metrics qPathAB ["a", "b"]).toOption.map
        (fun res => (res.paths_between_nodes.lookup ("a", "b"),
          (res.paths_between_nodes.lookup ("b", "a")).map List.reverse)) =
      some (some ["a", "-[R]->", "c", "-[S]->", "b"],
        some ["b", "-[S]->", "c", "-[R]->", "a"]) ∧
    some (["a", "-[R]->", "c", "-[S]->", "b"] : List String) ≠
      some (["b", "-[S]->", "c", "-[R]->", "a"] : List String) := by
  constructor
  · rfl
  · decide

/-- Witness for the amended C3 theorem at a concrete input. -/
theorem processPair_symmetric_contribution_witness :
    ∃ st', processPair qPathAB ["a", "b"]
        { node_scores := initScores ["a", "b"], paths_between_nodes := [],
          intermediate_nodes := [] } "a" "b" = .ok st' ∧
      st'.node_scores.lookup "a" =
        ((initScores ["a", "b"]).lookup "a").map
          (fun x => x + 1 / (1 + ((2 : Nat) : ℚ))) ∧
      st'.node_scores.lookup "b" =
        ((initScores ["a", "b"]).lookup "b").map
          (fun x => x + 1 / (1 + ((2 : Nat) : ℚ))) ∧
      st'.paths_between_nodes.lookup ("a", "b") =
        some (pathWithRels ["a", "c", "b"] ["R", "S"]) ∧
      st'.paths_between_nodes.lookup ("b", "a") =
        some (pathWithRels ["a", "c", "b"] ["R", "S"]) :=
  processPair_symmetric_contribution qPathAB ["a", "b"]
    { node_scores := initScores ["a", "b"], paths_between_nodes := [],
      intermediate_nodes := [] }
    "a" "b" { path := ["a", "c", "b"], rels := ["R", "S"], len := 2 }
    rfl (by decide)

end RAG

namespace RAG

/-! ## C5: behaviour of the scorer under query failure -/

lemma processPair_of_none {q : String → String → Except String (Option PathRec)}
    {nodes : List String} {st : GraphMetrics} {a b : String}
    (hq : q a b = .ok none) : processPair q nodes st a b = .ok st := by
  unfold processPair
  rw [hq]

lemma foldlM_processPair_ok (q : String → String → Except String (Option PathRec))
    (nodes : List String) :
    ∀ (ps : List (String × String)) (st : GraphMetrics),
      (∀ a b, ∃ r, q a b = .ok r) →
      ∃ st', ps.foldlM (fun st p => processPair q nodes st p.1 p.2) st = .ok st' ∧
        st'.node_scores.map Prod.fst = st.node_scores.map Prod.fst
  | [], st, _ => ⟨st, rfl, rfl⟩
  | p :: ps, st, hq => by
    rw [List.foldlM_cons]
    obtain ⟨r, hr⟩ := hq p.1 p.2
    cases r with
    | none =>
      rw [processPair_of_none hr]
      obtain ⟨st', h1, h2⟩ := foldlM_processPair_ok q nodes ps st hq
      exact ⟨st', h1, h2⟩
    | some pr =>
      rw [processPair_of_some hr]
      obtain ⟨st', h1, h2⟩ :=
        foldlM_processPair_ok q nodes ps
          { node_scores :=
              bumpScore (bumpScore st.node_scores p.1 (1 / (1 + (pr.len : ℚ))))
                p.2 (1 / (1 + (pr.len : ℚ))),
            paths_between_nodes :=
              setPath (setPath st.paths_between_nodes (p.1, p.2)
                  (pathWithRels pr.path pr.rels)) (p.2, p.1)
                (pathWithRels pr.path pr.rels),
            intermediate_nodes :=
              (interiorOf pr.path).foldl
                (fun acc n => if nodes.contains n then acc else addInter acc n)
                st.intermediate_nodes } hq
      refine ⟨st', h1, ?_⟩
      rw [h2]
      exact (bumpScore_keys _ _ _).trans (bumpScore_keys _ _ _)

lemma foldl_insertScoreKey_mem :
    ∀ (l : List String) (acc : List (String × ℚ)) (n : String),
      n ∈ acc.map Prod.fst ∨ n ∈ l →
      n ∈ (l.foldl insertScoreKey acc).map Prod.fst
  | [], _, n, h => by
    rcases h with h | h
    · exact h
    · exact absurd h (List.not_mem_nil n)
  | x :: l, acc, n, h => by
    rw [List.foldl_cons]
    refine foldl_insertScoreKey_mem l (insertScoreKey acc x) n ?_
    have hsub : ∀ m, m ∈ acc.map Prod.fst →
        m ∈ (insertScoreKey acc x).map Prod.fst := by
      intro m hm
      unfold insertScoreKey
      by_cases hc : acc.any (fun p => p.1 = x) = true
      · rw [if_pos hc]
        exact hm
      · rw [if_neg hc, List.map_append]
        exact List.mem_append_left _ hm
    rcases h with h | h
    · exact Or.inl (hsub n h)
    · rcases List.mem_cons.mp h with rfl | h'
      · left
        unfold insertScoreKey
        by_cases hc : acc.any (fun p => p.1 = n) = true
        · rw [if_pos hc]
          simp only [List.any_eq_true, decide_eq_true_eq] at hc
          obtain ⟨p, hp, hpk⟩ := hc
          rw [List.mem_map]
          exact ⟨p, hp, hpk⟩
        · rw [if_neg hc, List.map_append]
          refine List.mem_append_right _ ?_
          simp
      · exact Or.inr h'

/-- A store oracle whose every query raises (driver exception while the
graph store is unavailable). -/
def qFail : String → String → Except String (Option PathRec) :=
  fun _ _ => .error "connection refused"

/-- C5 counterexample: with the store unavailable (every pairwise query
raising), `calculate_graph_metrics` propagates the exception — there is no
`try/except` in the function — instead of treating the pair as "no path"
and returning a score map for the requested titles. -/
theorem calculate_graph_metrics_error_propagates :
    calculate_graph_metrics qFail ["a", "b"] = .error "connection refused" ∧
    (calculate_graph_metrics qFail ["a", "b"]).toOption = none :=
  ⟨rfl, rfl⟩

/-- C5 (amended): when every pairwise query returns (possibly with no
record) rather than raising, a no-record pair contributes nothing and the
call returns a score map containing an entry for every requested title; a
raised store error, by contrast, propagates out of the call. -/
theorem calculate_graph_metrics_complete_of_ok
    (q : String → String → Except String (Option PathRec))
    (nodes : List String) (hq : ∀ a b, ∃ r, q a b = .ok r) :
    ∃ res, calculate_graph_metrics q nodes = .ok res ∧
      ∀ n ∈ nodes, n ∈ res.node_scores.map Prod.fst := by
  obtain ⟨res, h1, h2⟩ := foldlM_processPair_ok q nodes (pairsOf nodes)
    ⟨initScores nodes, [], []⟩ hq
  refine ⟨res, h1, ?_⟩
  intro n hn
  rw [h2]
  exact foldl_insertScoreKey_mem nodes [] n (Or.inr hn)

/-- Witness for the amended C5 theorem: a store that answers every query
with "no record". -/
theorem calculate_graph_metrics_complete_of_ok_witness :
    ∃ res, calculate_graph_metrics (fun _ _ => .ok none) ["a", "b"] = .ok res ∧
      ∀ n ∈ ["a", "b"], n ∈ res.node_scores.map Prod.fst :=
  calculate_graph_metrics_complete_of_ok (fun _ _ => .ok none) ["a", "b"]
    (fun _ _ => ⟨none, rfl⟩)

end RAG

namespace RAG

/-! ## Context optimizer (`app/rag/agent.py`, `GraphContextOptimizer`)

The LLM (reasoning engine) and the Neo4j lookups of
`expand_nodes_via_relation` are external; an engine response is modelled as
either a terminal answer (no tool calls) or a batch of already-resolved tool
results. -/

/-- A node entry of `graph_payload["nodes"]`: `{"id": …, "graph_info": …}`
(plus an optional `"score"` key).  `_tools_node` reads only `n["id"]` and
`n["graph_info"]["title"]`, which are the two fields modelled here. -/
structure PNode where
  id : String
  title : String
deriving DecidableEq, Repr

/-- `graph_payload`: the dict `{"nodes": …, "paths": …}` built by the
retriever and threaded through the optimizer loop. -/
structure OptimizerPayload where
  nodes : List PNode
  paths : List ((String × String) × List String)
deriving DecidableEq, Repr

/-- The result dict returned by one tool invocation in `_tools_node`:
`delete_nodes` echoes the requested ids; `expand_nodes_via_relation` yields
the (zero or one) new nodes found by the store. -/
inductive ToolResult where
  | delete (ids : List String)
  | expand (newNodes : List PNode)
deriving DecidableEq, Repr

/-- One iteration of the tool loop of `_tools_node`: apply the tool result
to the payload and produce the observation message.
`delete`: `payload["nodes"] = [n for n in payload["nodes"] if n["id"] not in
target_ids]`, observation `"Удалено узлов: " + len(target_ids)`.
`expand`: append each new node whose title is not among the titles computed
before the loop; observation counts the appended nodes. -/
def applyToolResult (payload : OptimizerPayload) (r : ToolResult) :
    OptimizerPayload × String :=
  match r with
  | .delete ids =>
      ({ payload with nodes := payload.nodes.filter (fun n => ¬ ids.contains n.id) },
        "Удалено узлов: " ++ toString ids.length)
  | .expand newNodes =>
      let existing := payload.nodes.map (fun n => n.title)
      let added := newNodes.filter (fun nn => ¬ existing.contains nn.title)
      ({ payload with nodes := payload.nodes ++ added },
        "Добавлено узлов: " ++ toString added.length)

/-- `_tools_node`: fold the requested tool calls' results over the payload,
collecting one `ToolMessage` text per call. -/
def toolsNode (payload : OptimizerPayload) (results : List ToolResult) :
    OptimizerPayload × List String :=
  results.foldl
    (fun acc r =>
      let step := applyToolResult acc.1 r
      (step.1, acc.2 ++ [step.2]))
    (payload, [])

/-- The optimizer loop compiled by `_build_graph`, seen from `optimize`:
`llm → (router) → tools → llm → …`.  `fuel = max_iterations - llm_calls`;
`_llm_node` forces the terminal `"ГОТОВО"` without invoking the engine once
`llm_calls ≥ max_iterations` (`fuel = 0`).  The engine oracle maps the
current `llm_calls` value to `none` (a response with no tool calls, ending
the run via `_router`) or `some results` (tool calls, handled by
`_tools_node` before looping).  Returns the number of engine invocations
together with the final payload. -/
def runOptimizer (engine : Nat → Option (List ToolResult)) :
    Nat → Nat → OptimizerPayload → Nat × OptimizerPayload
  | 0, _, payload => (0, payload)
  | fuel + 1, calls, payload =>
      match engine calls with
      | none => (1, payload)
      | some results =>
          let next := runOptimizer engine fuel (calls + 1)
            (toolsNode payload results).1
          (next.1 + 1, next.2)

/-- `optimize(query, initial_payload)` starts the loop at `llm_calls = 0`
with the full budget `max_iterations` (default 5). -/
def optimize (engine : Nat → Option (List ToolResult)) (maxIterations : Nat)
    (initialPayload : OptimizerPayload) : Nat × OptimizerPayload :=
  runOptimizer engine maxIterations 0 initialPayload

lemma runOptimizer_calls_le (engine : Nat → Option (List ToolResult)) :
    ∀ (fuel calls : Nat) (payload : OptimizerPayload),
      (runOptimizer engine fuel calls payload).1 ≤ fuel
  | 0, _, _ => Nat.le_refl 0
  | fuel + 1, calls, payload => by
    unfold runOptimizer
    cases engine calls with
    | none => exact Nat.succ_le_succ (Nat.zero_le fuel)
    | some results =>
      exact Nat.succ_le_succ
        (runOptimizer_calls_le engine fuel (calls + 1) _)

/-- C4: for every engine behaviour, every iteration bound and every initial
payload, the optimizer run invokes the reasoning engine at most
`maxIterations` times before returning: once `llm_calls` has reached the
bound, the decide step emits the terminal response without calling the
engine. -/
theorem optimize_engine_calls_bounded (engine : Nat → Option (List ToolResult))
    (maxIterations : Nat) (initialPayload : OptimizerPayload) :
    (optimize engine maxIterations initialPayload).1 ≤ maxIterations :=
  runOptimizer_calls_le engine maxIterations 0 initialPayload

/-- C10: one `Execute` step (`_tools_node`) can change only the `"nodes"`
field of the payload — for every sequence of tool-call results applied in
one cycle, the `"paths"` mapping is unchanged. -/
theorem toolsNode_preserves_paths (payload : OptimizerPayload)
    (results : List ToolResult) :
    (toolsNode payload results).1.paths = payload.paths := by
  have key : ∀ (rs : List ToolResult) (p : OptimizerPayload) (msgs : List String),
      (rs.foldl (fun acc r =>
        let step := applyToolResult acc.1 r
        (step.1, acc.2 ++ [step.2])) (p, msgs)).1.paths = p.paths := by
    intro rs
    induction rs with
    | nil => intro p msgs; rfl
    | cons r rs ih =>
      intro p msgs
      rw [List.foldl_cons]
      have hstep : (applyToolResult p r).1.paths = p.paths := by
        cases r with
        | delete ids => rfl
        | expand newNodes => rfl
      exact (ih _ _).trans hstep
  exact key results payload []

end RAG

namespace RAG

/-! ## C6: semantics of the delete_nodes execute step -/

/-- C6 counterexample: executing `delete_nodes(["x"])` on a payload with no
nodes removes zero nodes, yet the observation message reports
`len(target_ids) = 1` removed. -/
theorem delete_nodes_overreports :
    (applyToolResult { nodes := [], paths := [] } (.delete ["x"])).1.nodes = [] ∧
    (applyToolResult { nodes := [], paths := [] } (.delete ["x"])).2 =
      "Удалено узлов: 1" ∧
    ({ nodes := [], paths := [] } : OptimizerPayload).nodes.length -
      (applyToolResult { nodes := [], paths := [] }
        (.delete ["x"])).1.nodes.length = 0 ∧
    (0 : Nat) ≠ 1 := by
  refine ⟨rfl, rfl, rfl, by decide⟩

/-- C6 (amended): the execute step of `delete_nodes(ids)` removes exactly
the nodes whose id is in `ids` (a node is kept iff it was present and its
id is not in `ids`), but the reported count is the length of the id list
(`len(target_ids)`), which can exceed the number of nodes actually
removed. -/
theorem delete_nodes_semantics (payload : OptimizerPayload) (ids : List String) :
    (∀ n : PNode, n ∈ (applyToolResult payload (.delete ids)).1.nodes ↔
      n ∈ payload.nodes ∧ n.id ∉ ids) ∧
    (applyToolResult payload (.delete ids)).2 =
      "Удалено узлов: " ++ toString ids.length := by
  constructor
  · intro n
    show n ∈ payload.nodes.filter (fun n => ¬ ids.contains n.id) ↔ _
    rw [List.mem_filter]
    simp [List.elem_iff]
  · rfl

end RAG

namespace RAG

/-! ## Fuzzy span matcher (`app/NER.py`, `gazetteer_ner`)

`razdel.tokenize` and rapidfuzz's `fuzz.ratio` are external libraries: the
token list of the text and the similarity function are parameters. -/

/-- A word token with character offsets into the source text. -/
structure Token where
  text : String
  start : Nat
  stop : Nat
deriving DecidableEq, Repr, Inhabited

/-- Python character slice `text[a:b]` (used by the matcher with
`0 ≤ a ≤ b` inside the text). -/
def pySlice (s : String) (a b : Nat) : String :=
  ⟨(s.data.drop a).take (b - a)⟩

/-- `" ".join(lowered_tokens[i:j])`: the lowercase fragment of the token
window `[i, j)`. -/
def fragmentOf (tokens : List Token) (i j : Nat) : String :=
  String.intercalate " "
    (((tokens.map (fun t => strLower t.text)).drop i).take (j - i))

/-- `gazetteer_ner` from `app/NER.py`: for every start index `i` and every
window end `j` enumerated by `range(i+1, min(i+6, len(tokens))+1)` — that
is, `i+1 ≤ j ≤ min(i+6, len(tokens))`, so windows reach SIX tokens — score
the lowercase fragment against every gazetteer entry's lowercase form and
emit a candidate span whenever `score ≥ cutoff`. -/
def gazetteer_ner (ratio : String → String → ℚ) (gazetteer : List String)
    (text : String) (tokens : List Token) (cutoff : ℚ) : List Entity :=
  let n := tokens.length
  (List.range n).flatMap (fun i =>
    (List.range' (i + 1) (min (i + 6) n - i)).flatMap (fun j =>
      let fragment := fragmentOf tokens i j
      let start := (tokens.getD i default).start
      let stop := (tokens.getD (j - 1) default).stop
      let origFragment := pySlice text start stop
      gazetteer.filterMap (fun name =>
        let score := ratio fragment (strLower name)
        if cutoff ≤ score then
          some { text := origFragment, span := (start, stop),
                 canonical := some name, score := some score,
                 source := "gazetteer" }
        else none)))

/-- How many tokens a candidate span covers entirely. -/
def tokensCovered (tokens : List Token) (e : Entity) : Nat :=
  (tokens.filter (fun t => e.span.1 ≤ t.start ∧ t.stop ≤ e.span.2)).length

/-- An exact-equality similarity oracle: `100` on equal strings, `0`
otherwise (rapidfuzz's `fuzz.ratio` attains `100` exactly on equal
strings). -/
def eqRatio (s t : String) : ℚ :=
  if s = t then 100 else 0

lemma eqRatio_exact : ∀ s t : String, 100 ≤ eqRatio s t → s = t := by
  intro s t h
  by_cases hst : s = t
  · exact hst
  · rw [eqRatio, if_neg hst] at h
    norm_num at h

/-- Six one-letter tokens at character offsets 0,2,4,6,8,10 of
`"a b c d e f"`. -/
def sixTokens : List Token :=
  [{ text := "a", start := 0, stop := 1 }, { text := "b", start := 2, stop := 3 },
   { text := "c", start := 4, stop := 5 }, { text := "d", start := 6, stop := 7 },
   { text := "e", start := 8, stop := 9 }, { text := "f", start := 10, stop := 11 }]

/-- C2: the claim fails on the code — with a six-token text and the
six-token gazetteer entry `"a b c d e f"` at `cutoff = 100`, the matcher
emits a candidate span covering SIX tokens, because
`range(i+1, min(i+6, len(tokens))+1)` lets `j` reach `i+6`.  This
contradicts the code's own comment (`# ngram длиной до 5 слов`) and the
spec's 1..5 window bound. -/
theorem gazetteer_ner_emits_six_token_window :
    ∃ e ∈ gazetteer_ner eqRatio ["a b c d e f"] "a b c d e f" sixTokens 100,
      tokensCovered sixTokens e = 6 := by
  decide

end RAG

namespace RAG

/-- C7: with `cutoff = 100` and a similarity oracle that attains `100` only
on equal strings (which is how `fuzz.ratio` behaves), every candidate span
returned by `gazetteer_ner` arises from a token window whose lowercase
fragment is identical — case-insensitively — to its gazetteer entry. -/
theorem gazetteer_ner_cutoff100_exact
    (ratio : String → String → ℚ) (gazetteer : List String)
    (text : String) (tokens : List Token)
    (hratio : ∀ s t, 100 ≤ ratio s t → s = t) :
    ∀ e ∈ gazetteer_ner ratio gazetteer text tokens 100,
      ∃ name ∈ gazetteer, e.canonical = some name ∧
        ∃ i j, i < tokens.length ∧ i + 1 ≤ j ∧ j ≤ min (i + 6) tokens.length ∧
          fragmentOf tokens i j = strLower name ∧
          e.span = ((tokens.getD i default).start,
            (tokens.getD (j - 1) default).stop) := by
  intro e he
  unfold gazetteer_ner at he
  simp only [List.mem_flatMap, List.mem_range, List.mem_range',
    List.mem_filterMap] at he
  obtain ⟨i, hi, j, ⟨k, hk, hjk⟩, name, hname, hif⟩ := he
  by_cases hscore : (100 : ℚ) ≤ ratio (fragmentOf tokens i j) (strLower name)
  · rw [if_pos hscore] at hif
    have hfrag : fragmentOf tokens i j = strLower name := hratio _ _ hscore
    obtain rfl := Option.some.inj hif
    refine ⟨name, hname, rfl, i, j, hi, ?_, ?_, hfrag, rfl⟩
    · omega
    · omega
  · rw [if_neg hscore] at hif
    exact absurd hif (by simp)

/-- The single token and the emitted candidate of C7's concrete witness
input (`text = "Ab"`, gazetteer `["ab"]`, exact similarity, cutoff 100). -/
def tokAb : Token :=
  { text := "Ab", start := 0, stop := 2 }

def entAb : Entity :=
  { text := "Ab", span := (0, 2), canonical := some "ab", score := some 100,
    source := "gazetteer" }

/-- Witness for C7 at a concrete input. -/
theorem gazetteer_ner_cutoff100_exact_witness :
    ∃ name ∈ ["ab"], entAb.canonical = some name ∧
      ∃ i j, i < [tokAb].length ∧ i + 1 ≤ j ∧ j ≤ min (i + 6) [tokAb].length ∧
        fragmentOf [tokAb] i j = strLower name ∧
        entAb.span = (([tokAb].getD i default).start,
          ([tokAb].getD (j - 1) default).stop) :=
  gazetteer_ner_cutoff100_exact eqRatio ["ab"] "Ab" [tokAb] eqRatio_exact
    entAb (by decide)

end RAG
